import Mathlib

/-!
Verification development for the modeltools module: a shallow embedding of
PropertyFormatter (dotted attribute-path resolution and key discovery),
format_filename / upload_to (the upload-path builder), and Enum (the
enumeration helper), together with theorems checking the documented
behaviour of each operation.

Modelling conventions:
  - A Python value is the inductive Value below; model instances are
    addressed by identity through a supplied list of Record values (the
    db argument), so that cyclic relationship graphs are expressible.
  - Attribute lookup (getattr) is association-list lookup in the attrs
    field of a Record; a lookup that fails models an AttributeError.
  - Machine-level details that no claim touches (the framework-defined
    string form of a model instance) are opaque but fixed strings.
  - The two in-place mutable objects of the source, the keys list and the
    checked_models default argument of _add_related_keys, are threaded
    explicitly as inputs and outputs; the checked_models list persists
    between top-level calls exactly as a Python mutable default does.
  - Regex character classes follow Python 2 re without the UNICODE flag:
    word characters are ASCII letters, digits and underscore, whitespace
    is the six ASCII whitespace characters.
-/

set_option maxHeartbeats 1000000

namespace Modeltools

/-- Character class of the regex class backslash-w in Python 2 without the
UNICODE flag: ASCII letters, digits and the underscore. -/
def isWordChar (c : Char) : Bool :=
  c.isAlpha || c.isDigit || c = '_'

/-- Character class of the regex class backslash-s in Python 2 without the
UNICODE flag: space, tab, newline, carriage return, vertical tab, form
feed. -/
def isSpaceChar (c : Char) : Bool :=
  c = ' ' || c = '\t' || c = '\n' || c = '\r' || c = '\x0b' || c = '\x0c'

/-- Scanner for the whitespace-collapsing substitution: the flag records
whether the scanner is inside a whitespace run whose replacement delimiter
has already been emitted. -/
def collapseWsAux (delim : List Char) : Bool → List Char → List Char
  | _, [] => []
  | inWs, c :: rest =>
    if isSpaceChar c then
      if inWs then collapseWsAux delim true rest
      else delim ++ collapseWsAux delim true rest
    else c :: collapseWsAux delim false rest

/-- Replacement of every maximal run of whitespace characters by one copy
of the delimiter, as performed by the final re.sub call of
PropertyFormatter.__getitem__ (substituting for one-or-more whitespace
characters, leftmost-longest). -/
def collapseWs (delim : List Char) (l : List Char) : List Char :=
  collapseWsAux delim false l

/-- Inside a whitespace run the scanner just drops the remaining whitespace
of the run: running it with the flag set equals running it afresh on the
input with its whitespace prefix removed. -/
theorem collapseWsAux_true (delim : List Char) :
    ∀ l : List Char, collapseWsAux delim true l = collapseWs delim (l.dropWhile isSpaceChar) := by
  intro l
  induction l with
  | nil => simp [collapseWsAux, collapseWs]
  | cons c rest ih =>
    by_cases hc : isSpaceChar c = true
    · rw [List.dropWhile_cons_of_pos hc]
      simp only [collapseWsAux, hc, if_true]
      exact ih
    · have hcf : isSpaceChar c = false := by simpa using hc
      rw [List.dropWhile_cons_of_neg (by simp [hcf])]
      simp [collapseWsAux, collapseWs, hcf]

/-- The defining step equations of collapseWs in dropWhile form. -/
theorem collapseWs_cons (delim : List Char) (c : Char) (rest : List Char) :
    collapseWs delim (c :: rest) =
      if isSpaceChar c then delim ++ collapseWs delim (rest.dropWhile isSpaceChar)
      else c :: collapseWs delim rest := by
  by_cases hc : isSpaceChar c = true
  · simp [collapseWs, collapseWsAux, hc, collapseWsAux_true]
  · have hcf : isSpaceChar c = false := by simpa using hc
    simp [collapseWs, collapseWsAux, hcf]

/-- The configuration held by a PropertyFormatter: the lowercase,
nonwordchars and word_delimiter construction parameters. -/
structure Cfg where
  lowercase : Bool
  nonwordchars : Bool
  word_delimiter : String
deriving DecidableEq

/-- A Python value as the formatter can meet it: the None object, a string,
an integer, or a reference (by identity) to a model instance. -/
inductive Value where
  | none
  | str (s : String)
  | int (n : Int)
  | ref (i : Nat)
deriving DecidableEq

/-- One entry of the schema description model._meta.fields: the field name
and whether field.rel is not None (a relationship to another model). -/
structure MetaField where
  name : String
  rel : Bool
deriving DecidableEq

/-- A model instance: an instance identity, the identity of its model class
(its schema), the instance attribute dictionary, and the schema
description model._meta.fields. Attribute lookup and the keys of the
instance dictionary are both modelled by the attrs association list. -/
structure Record where
  id : Nat
  schemaId : Nat
  attrs : List (String × Value)
  metaFields : List MetaField
deriving DecidableEq

/-- The supplied graph of model instances, addressed by instance identity. -/
def findRec (db : List Record) (i : Nat) : Option Record :=
  db.find? (fun r => r.id == i)

/-- Association-list lookup modelling getattr by name on a model instance. -/
def lookupAttr (attrs : List (String × Value)) (name : String) : Option Value :=
  (attrs.find? (fun p => p.1 == name)).map Prod.snd

/-- One getattr step of the resolution loop: on a model reference, look the
name up in the instance attributes of the referenced record; on any other
value the attribute is absent, which models an AttributeError. -/
def getattrV (db : List Record) (v : Value) (name : String) : Option Value :=
  match v with
  | Value.ref i =>
    match findRec db i with
    | some r => lookupAttr r.attrs name
    | Option.none => Option.none
  | _ => Option.none

/-- Python str.split with the fixed double-underscore separator: scan left
to right, cutting at each non-overlapping occurrence of the separator; the
empty string yields one empty segment, exactly as in Python. -/
def pySplitDunder : List Char → List (List Char)
  | [] => [[]]
  | '_' :: '_' :: rest => [] :: pySplitDunder rest
  | c :: rest =>
    match pySplitDunder rest with
    | [] => [[c]]
    | s :: ss => (c :: s) :: ss

/-- The segment list of a key: key.split with the double underscore. -/
def splitKey (key : String) : List String :=
  (pySplitDunder key.data).map String.mk

/-- The resolution loop of PropertyFormatter.__getitem__: pop the leading
segment, fetch the attribute (an AttributeError is turned into None), and
stop early as soon as the current value is None. -/
def resolveChain (db : List Record) : Value → List String → Value
  | v, [] => v
  | v, n :: rest =>
    match getattrV db v n with
    | Option.none => Value.none
    | some Value.none => Value.none
    | some v' => resolveChain db v' rest

/-- The built-in str conversion for the values the formatter can meet. The
string form of a model instance stands in for the framework-defined
representation; no theorem below depends on its exact text. -/
def pyStr : Value → String
  | Value.none => "None"
  | Value.str s => s
  | Value.int n => toString n
  | Value.ref i => "<Record: " ++ toString i ++ ">"

/-- The post-processing pipeline of PropertyFormatter.__getitem__ applied to
the string form of the resolved value: lowercase it when the lowercase
option is set, then, when nonwordchars is false, drop every character that
is neither a word character nor whitespace, then replace every maximal
whitespace run by the word delimiter. -/
def sanitize (cfg : Cfg) (s : String) : String :=
  let s1 := if cfg.lowercase then s.data.map Char.toLower else s.data
  let s2 := if cfg.nonwordchars then s1
            else s1.filter (fun c => isWordChar c || isSpaceChar c)
  String.mk (collapseWs cfg.word_delimiter.data s2)

/-- PropertyFormatter.__getitem__: split the key on the double underscore,
walk the attribute chain from the root model, and sanitize the string form
of the outcome. The operation is total: a missing attribute or a None met
along the chain yields the sanitized string form of None. -/
def getItem (db : List Record) (cfg : Cfg) (model : Value) (key : String) : String :=
  sanitize cfg (pyStr (resolveChain db model (splitKey key)))

/-- Whether the resolution loop for the given chain stops early: some
segment names an attribute that is absent on the current value, or an
intermediate value met by the walk is None. -/
def brokenAtB (db : List Record) : Value → List String → Bool
  | _, [] => false
  | v, n :: rest =>
    match getattrV db v n with
    | Option.none => true
    | some Value.none => true
    | some v' => brokenAtB db v' rest

/-- Whether a value is a non-null terminal scalar (a string or an integer,
not None and not a model reference). -/
def Value.isScalar : Value → Bool
  | Value.str _ => true
  | Value.int _ => true
  | _ => false

/-- PropertyFormatter._get_keys: the keys of the instance dictionary. -/
def getKeys (r : Record) : List String := r.attrs.map Prod.fst

/-- The body of the loop over model._meta.fields in _add_related_keys: for
a relationship field whose value is a present related instance, append the
related instance keys under the joined prefix to the keys component of the
accumulator and recurse into the related instance; any other field leaves
the accumulator unchanged. The recursion is abstracted as the recurse
argument so that addRelatedKeys below can pass itself. -/
def relStep (db : List Record)
    (recurse : Record → List String → List String → List Nat → List String × List Nat)
    (model : Record) (prefixes : List String)
    (acc : List String × List Nat) (field : MetaField) : List String × List Nat :=
  if field.rel then
    match lookupAttr model.attrs field.name with
    | some (Value.ref i) =>
      match findRec db i with
      | some m =>
        let pre := prefixes ++ [field.name]
        let p := String.intercalate "__" pre
        recurse m (acc.1 ++ (getKeys m).map (fun k => p ++ "__" ++ k)) pre acc.2
      | Option.none => acc
    | _ => acc
  else acc

/-- PropertyFormatter._add_related_keys with the two in-place mutated lists
made explicit: the keys list and the checked_models list (instance
identities in visit order) are threaded through the relStep fold over
model._meta.fields and returned. The fuel argument only bounds the nesting
depth of the recursion so the definition is total; keysCall below passes
enough fuel for the checked_models guard to be the operative bound, which
the fuel-indifference theorem makes precise. -/
def addRelatedKeys (db : List Record) : Nat → Record → List String → List String →
    List Nat → List String × List Nat
  | 0, _, keys, _, checked => (keys, checked)
  | Nat.succ f, model, keys, prefixes, checked =>
    if model.id ∈ checked then (keys, checked)
    else model.metaFields.foldl
      (relStep db (fun m k p c => addRelatedKeys db f m k p c) model prefixes)
      (keys, checked ++ [model.id])

/-- PropertyFormatter.keys: the direct instance-dictionary keys of the root
followed by the discovered related keys. The checked argument is the
content of the mutable checked_models default argument at call time (it
persists between calls in the source); the second component of the result
is its content afterwards. -/
def keysCall (db : List Record) (root : Record) (checked : List Nat) :
    List String × List Nat :=
  addRelatedKeys db (db.length + 2) root (getKeys root) [] checked

/-- Python rfind on a character list: the greatest index holding the
character, or minus one. -/
def rfindIdx (l : List Char) (c : Char) : Int :=
  match l.reverse.findIdx? (fun x => x == c) with
  | some j => (l.length : Int) - 1 - (j : Int)
  | Option.none => -1

/-- The extension component of os.path.splitext (posixpath): the suffix
from the last dot, provided that dot lies after the last slash and the
final path component has a character other than a dot somewhere before it;
otherwise the empty string. -/
def splitext_ext (p : String) : String :=
  if rfindIdx p.data '/' < rfindIdx p.data '.' then
    if ((p.data.drop (rfindIdx p.data '/' + 1).toNat).take
        (rfindIdx p.data '.' - rfindIdx p.data '/' - 1).toNat).any
        (fun ch => !(ch == '.')) then
      String.mk (p.data.drop (rfindIdx p.data '.').toNat)
    else ""
  else ""

/-- A token of a parsed format pattern: a literal character or a
placeholder naming an attribute path. -/
inductive FmtToken where
  | lit (c : Char)
  | field (name : String)
deriving DecidableEq

/-- Tokenizer for str.format patterns, restricted to the placeholder forms
the module uses: literal text, doubled braces as escapes, and simple named
placeholders. The first argument is the reversed accumulator of the
placeholder name currently being read, if any. Conversion and format-spec
suffixes inside a placeholder are not interpreted (the patterns in scope
use plain dotted names). -/
def parseFormatAux : Option (List Char) → List Char → Except String (List FmtToken)
  | Option.none, [] => Except.ok []
  | some _, [] => Except.error "expected closing brace before end of string"
  | Option.none, '{' :: '{' :: rest =>
    (parseFormatAux Option.none rest).map (fun ts => FmtToken.lit '{' :: ts)
  | Option.none, '}' :: '}' :: rest =>
    (parseFormatAux Option.none rest).map (fun ts => FmtToken.lit '}' :: ts)
  | Option.none, '{' :: rest => parseFormatAux (some []) rest
  | Option.none, '}' :: _ => Except.error "single closing brace encountered in format string"
  | Option.none, c :: rest =>
    (parseFormatAux Option.none rest).map (fun ts => FmtToken.lit c :: ts)
  | some acc, '}' :: rest =>
    (parseFormatAux Option.none rest).map
      (fun ts => FmtToken.field (String.mk acc.reverse) :: ts)
  | some _, '{' :: _ => Except.error "unexpected opening brace in field name"
  | some acc, c :: rest => parseFormatAux (some (c :: acc)) rest

/-- Tokenize a whole format pattern. -/
def parseFormat (l : List Char) : Except String (List FmtToken) :=
  parseFormatAux Option.none l

/-- The placeholder names of a pattern, in order of appearance; empty when
the pattern is malformed. -/
def placeholdersOf (pattern : String) : List String :=
  match parseFormat pattern.data with
  | Except.ok toks =>
    toks.filterMap (fun t => match t with
      | FmtToken.field n => some n
      | FmtToken.lit _ => Option.none)
  | Except.error _ => []

/-- Substitution of the parsed tokens against the keyword dictionary: a
placeholder whose name is not a key of the dictionary raises a KeyError,
exactly as str.format does with keyword arguments. -/
def renderToks (kwargs : List (String × String)) : List FmtToken → Except String String
  | [] => Except.ok ""
  | FmtToken.lit c :: rest =>
    (renderToks kwargs rest).map (fun s => String.mk (c :: s.data))
  | FmtToken.field n :: rest =>
    match kwargs.find? (fun q => q.1 == n) with
    | some q => (renderToks kwargs rest).map (fun s => q.2 ++ s)
    | Option.none => Except.error ("KeyError: " ++ n)

/-- The keyword dictionary built by the double-star unpacking in
pattern.format(**wrapper): Python converts the mapping to a dict by
calling keys() and then __getitem__ on every key of that list, so every
advertised key is resolved here, before the pattern is even parsed. The
second component is the checked_models state after the keys() call. -/
def formatKwargs (db : List Record) (cfg : Cfg) (self : Record)
    (checked : List Nat) : List (String × String) × List Nat :=
  let ks := keysCall db self checked
  (ks.1.map (fun k => (k, getItem db cfg (Value.ref self.id) k)), ks.2)

/-- The attribute paths on which __getitem__ is invoked while
pattern.format(**wrapper) runs: the keys of the keyword dictionary built
by the double-star unpacking. -/
def resolved_paths (db : List Record) (cfg : Cfg) (self : Record)
    (checked : List Nat) : List String :=
  (formatKwargs db cfg self checked).1.map Prod.fst

/-- The upload_to closure produced by format_filename, with the closure
configuration passed explicitly: extract the extension of the old
filename, build the keyword dictionary from a fresh PropertyFormatter over
the model, substitute the pattern, and append the extension when
add_extension is set. The checked argument and the second component model
the checked_models default of _add_related_keys, which persists between
invocations. -/
def upload_to (pattern : String) (add_extension lowercase nonwordchars : Bool)
    (word_delimiter : String) (db : List Record) (self : Record)
    (old_filename : String) (checked : List Nat) :
    Except String String × List Nat :=
  let extension := splitext_ext old_filename
  let cfg : Cfg := ⟨lowercase, nonwordchars, word_delimiter⟩
  let fk := formatKwargs db cfg self checked
  let res :=
    match parseFormat pattern.data with
    | Except.error e => Except.error e
    | Except.ok toks =>
      match renderToks fk.1 toks with
      | Except.error e => Except.error e
      | Except.ok s => Except.ok (if add_extension then s ++ extension else s)
  (res, fk.2)

/-- The Enum helper: the keyword mapping from constant name to a pair of a
stored code and a label, kept in construction order. -/
structure Enum where
  kwargs : List (String × (String × String))
deriving DecidableEq

/-- Enum.choices: the stored (code, label) pairs. -/
def Enum.choices (e : Enum) : List (String × String) := e.kwargs.map Prod.snd

/-- Enum.keys: the constant names. -/
def Enum.keys (e : Enum) : List String := e.kwargs.map Prod.fst

/-- Enum.values: the stored codes, in construction order. -/
def Enum.values (e : Enum) : List String := e.kwargs.map (fun q => q.2.1)

/-- Enum.labels: the stored labels, in construction order. -/
def Enum.labels (e : Enum) : List String := e.kwargs.map (fun q => q.2.2)

/-- The scanning loop of Enum.get_label: walk the stored pairs and return
the label of the first pair whose code equals the argument; falling off
the end of the loop returns the implicit None of the Python function. -/
def getLabelLoop (enum_value : String) : List (String × String) → Option String
  | [] => Option.none
  | (key, value) :: rest =>
    if enum_value = key then some value else getLabelLoop enum_value rest

/-- Enum.get_label. -/
def Enum.get_label (e : Enum) (enum_value : String) : Option String :=
  getLabelLoop enum_value e.choices

/-- Specification-side definition, for comparison with the code: the naive
last-dot extension rule as the specification words it, taking the suffix
of the whole filename from its last dot, or the empty string when there is
no dot. -/
def last_dot_ext_spec (f : String) : String :=
  if 0 ≤ rfindIdx f.data '.' then String.mk (f.data.drop (rfindIdx f.data '.').toNat)
  else ""

/-- Specification-side characterization of whitespace collapsing: the input
decomposes into maximal runs of whitespace and of non-whitespace (adjacent
runs differ in kind, every run is nonempty), and the output is the runs
rendered back with every whitespace run replaced by a single copy of the
delimiter. -/
def CollapsesMaximalWsRuns (delim s out : List Char) : Prop :=
  ∃ runs : List (Bool × List Char),
    s = (runs.map Prod.snd).flatten ∧
    (∀ r ∈ runs, r.2 ≠ [] ∧ ∀ c ∈ r.2, isSpaceChar c = r.1) ∧
    List.Chain' (fun a b => a.1 ≠ b.1) runs ∧
    out = (runs.map (fun r => if r.1 then delim else r.2)).flatten

/-- The placeholder names of a parsed token list, in order. -/
def placeholderNames (toks : List FmtToken) : List String :=
  toks.filterMap (fun t => match t with
    | FmtToken.field n => some n
    | FmtToken.lit _ => Option.none)

/-- Configuration used by the concrete examples: lowercase on, the
nonwordchars stripping on, underscore delimiter (the defaults of
format_filename). -/
def exCfg : Cfg := ⟨true, false, "_"⟩

/-- Example related record: a group with a name holding whitespace. -/
def exGroup : Record := ⟨1, 10, [("name", Value.str "Admin Team")], []⟩

/-- Example root record: a person with a relationship field to the group. -/
def exPerson : Record :=
  ⟨0, 20, [("group", Value.ref 1), ("last_name", Value.str "Smith")], [⟨"group", true⟩]⟩

/-- Example graph for the resolution claims. -/
def exDb : List Record := [exPerson, exGroup]

/-- Graph in which the same schema (0) is carried by two distinct
instances (identities 0 and 2) reached through a chain of two
relationships. -/
def exA0 : Record := ⟨0, 0, [("name", Value.str "a0"), ("rel", Value.ref 1)], [⟨"rel", true⟩]⟩

/-- Middle record of the two-step chain, schema 1. -/
def exB1 : Record := ⟨1, 1, [("title", Value.str "t"), ("rel2", Value.ref 2)], [⟨"rel2", true⟩]⟩

/-- Second instance of schema 0, reached from exB1; its own relationship
field is null. -/
def exA2 : Record := ⟨2, 0, [("name", Value.str "a2"), ("rel", Value.none)], [⟨"rel", true⟩]⟩

/-- The duplicated-schema graph. -/
def exDb2 : List Record := [exA0, exB1, exA2]

/-- One half of a two-record relationship cycle. -/
def exCa : Record := ⟨0, 0, [("name", Value.str "n"), ("b", Value.ref 1)], [⟨"b", true⟩]⟩

/-- The other half of the cycle, pointing back. -/
def exCb : Record := ⟨1, 1, [("x", Value.str "y"), ("a", Value.ref 0)], [⟨"a", true⟩]⟩

/-- The cyclic graph. -/
def exDbCyc : List Record := [exCa, exCb]

/-- Root of the two-record graph used to observe the persistence of the
checked_models default between keys() calls. -/
def exA5 : Record := ⟨0, 0, [("name", Value.str "n"), ("group", Value.ref 1)], [⟨"group", true⟩]⟩

/-- The related record of that graph. -/
def exG5 : Record := ⟨1, 1, [("title", Value.str "t")], []⟩

/-- The two-record graph with one relationship. -/
def exDb5 : List Record := [exA5, exG5]

/-- A single record with one scalar attribute and no relationships. -/
def exR3 : Record := ⟨0, 0, [("bar", Value.str "x")], []⟩

/-- The single-record graph. -/
def exDb3 : List Record := [exR3]

/-- A broken chain resolves to None: as soon as a segment attribute is
absent or a value met by the walk is None, the loop stops with None. -/
theorem resolveChain_broken (db : List Record) :
    ∀ (v : Value) (chain : List String), brokenAtB db v chain = true →
    resolveChain db v chain = Value.none := by
  intro v chain
  induction chain generalizing v with
  | nil => intro h; simp [brokenAtB] at h
  | cons n rest ih =>
    intro h
    simp only [brokenAtB] at h
    simp only [resolveChain]
    cases hg : getattrV db v n with
    | none => simp
    | some v' =>
      cases v' with
      | none => simp
      | str s => rw [hg] at h; exact ih _ h
      | int m => rw [hg] at h; exact ih _ h
      | ref i => rw [hg] at h; exact ih _ h

/-- C1: for every attribute path on which some segment attribute is absent
or some intermediate value is null, resolution never fails and returns the
sanitized textual representation of the null value, produced by the same
sanitize pipeline a found value goes through. -/
theorem claim_C1 (db : List Record) (cfg : Cfg) (model : Value) (key : String)
    (h : brokenAtB db model (splitKey key) = true) :
    getItem db cfg model key = sanitize cfg (pyStr Value.none) := by
  unfold getItem
  rw [resolveChain_broken db model _ h]

/-- Witness for C1 at a concrete input: the path missing__x does not exist
on the example person, and resolves to the sanitized null text. -/
theorem claim_C1_witness :
    brokenAtB exDb (Value.ref 0) (splitKey "missing__x") = true ∧
    getItem exDb exCfg (Value.ref 0) "missing__x" = sanitize exCfg (pyStr Value.none) :=
  ⟨by decide, claim_C1 exDb exCfg (Value.ref 0) "missing__x" (by decide)⟩

/-- The get_label loop is a first-match linear scan. -/
theorem getLabelLoop_find? (v : String) :
    ∀ l : List (String × String),
    getLabelLoop v l = (l.find? (fun q => q.1 == v)).map Prod.snd := by
  intro l
  induction l with
  | nil => simp [getLabelLoop]
  | cons q rest ih =>
    obtain ⟨key, value⟩ := q
    by_cases h : v = key
    · subst h; simp [getLabelLoop, List.find?]
    · have h2 : (key == v) = false := by
        simp only [beq_eq_false_iff_ne]; exact fun hk => h hk.symm
      simp [getLabelLoop, List.find?, h, h2, ih]

/-- C9: get_label scans the stored (code, label) pairs in order and returns
the label of the first pair whose code equals the argument; when no pair
matches (duplicates or not), the result is None rather than an error. -/
theorem claim_C9 (e : Enum) (v : String) :
    e.get_label v = (e.choices.find? (fun q => q.1 == v)).map Prod.snd ∧
    (e.get_label v = Option.none ↔ ∀ q ∈ e.choices, q.1 ≠ v) := by
  constructor
  · exact getLabelLoop_find? v e.choices
  · rw [Enum.get_label, getLabelLoop_find? v e.choices]
    cases hf : e.choices.find? (fun q => q.1 == v) with
    | none =>
      simp only [Option.map, true_iff]
      intro q hq
      have := List.find?_eq_none.mp hf q hq
      simpa using this
    | some q =>
      constructor
      · intro h; simp at h
      · intro hall
        exfalso
        exact hall q (List.mem_of_find?_eq_some hf)
          (by simpa using List.find?_some hf)

/-- C10: resolving the empty path is total: the empty string splits into
the single empty segment, whose attribute lookup finds nothing on the root
record, so the result is the sanitized null text, the same string any path
whose first segment is absent resolves to. -/
theorem claim_C10 (db : List Record) (cfg : Cfg) (rid : Nat) (r : Record)
    (hfind : findRec db rid = some r)
    (hempty : lookupAttr r.attrs "" = Option.none) :
    getItem db cfg (Value.ref rid) "" = sanitize cfg (pyStr Value.none) ∧
    splitKey "" = [""] ∧
    (∀ (key : String) (n : String) (rest : List String),
      splitKey key = n :: rest → lookupAttr r.attrs n = Option.none →
      getItem db cfg (Value.ref rid) key = getItem db cfg (Value.ref rid) "") := by
  have hsplit : splitKey "" = [""] := by decide
  have hempty' : getItem db cfg (Value.ref rid) "" = sanitize cfg (pyStr Value.none) := by
    unfold getItem
    rw [hsplit]
    simp [resolveChain, getattrV, hfind, hempty]
  refine ⟨hempty', hsplit, ?_⟩
  intro key n rest hk hn
  rw [hempty']
  unfold getItem
  rw [hk]
  simp [resolveChain, getattrV, hfind, hn]

/-- Witness for C10 at a concrete input: the example person record has no
attribute named by the empty string, and resolving the empty path yields
the sanitized null text. -/
theorem claim_C10_witness :
    findRec exDb 0 = some exPerson ∧
    lookupAttr exPerson.attrs "" = Option.none ∧
    getItem exDb exCfg (Value.ref 0) "" = sanitize exCfg (pyStr Value.none) :=
  ⟨by decide, by decide,
    (claim_C10 exDb exCfg 0 exPerson (by decide) (by decide)).1⟩

/-- The head element left by dropWhile falsifies the predicate. -/
theorem dropWhile_head_not (p : Char → Bool) :
    ∀ (l : List Char) (a : Char) (rest : List Char),
    l.dropWhile p = a :: rest → p a = false := by
  intro l
  induction l with
  | nil => intro a rest h; simp [List.dropWhile] at h
  | cons c tl ih =>
    intro a rest h
    by_cases hp : p c
    · rw [List.dropWhile_cons_of_pos hp] at h
      exact ih a rest h
    · rw [List.dropWhile_cons_of_neg hp] at h
      cases h
      simpa using hp

/-- The whitespace-collapsing pass realizes the specification-side
description: the input splits into maximal whitespace and non-whitespace
runs, and the output is the input with every whitespace run replaced by a
single copy of the delimiter. -/
theorem collapseWs_runs_aux (delim : List Char) :
    ∀ (n : Nat) (s : List Char), s.length ≤ n →
    CollapsesMaximalWsRuns delim s (collapseWs delim s) := by
  intro n
  induction n with
  | zero =>
    intro s hs
    have hs0 : s = [] := by
      cases s with
      | nil => rfl
      | cons a l => simp at hs
    subst hs0
    exact ⟨[], by simp, by simp, by simp, by simp [collapseWs, collapseWsAux]⟩
  | succ n ih =>
    intro s hs
    cases s with
    | nil => exact ⟨[], by simp, by simp, by simp, by simp [collapseWs, collapseWsAux]⟩
    | cons c rest =>
      by_cases hc : isSpaceChar c = true
      · have hlen : (rest.dropWhile isSpaceChar).length ≤ n := by
          have h1 := (List.dropWhile_suffix (l := rest) isSpaceChar).length_le
          simp only [List.length_cons] at hs
          omega
        obtain ⟨runs, hdec, hrn, hch, hout⟩ := ih (rest.dropWhile isSpaceChar) hlen
        refine ⟨(true, c :: rest.takeWhile isSpaceChar) :: runs, ?_, ?_, ?_, ?_⟩
        · simp only [List.map_cons, List.flatten_cons]
          rw [← hdec]
          simp [List.takeWhile_append_dropWhile]
        · intro r hr
          rcases List.mem_cons.mp hr with hr1 | hr2
          · subst hr1
            refine ⟨by simp, ?_⟩
            intro ch hch2
            rcases List.mem_cons.mp hch2 with h1 | h2
            · subst h1; exact hc
            · exact List.mem_takeWhile_imp h2
          · exact hrn r hr2
        · rw [List.chain'_cons']
          refine ⟨?_, hch⟩
          intro y hy
          cases runs with
          | nil => simp at hy
          | cons hd tl =>
            have hyhd : hd = y := by simpa using hy
            obtain ⟨hne, hall⟩ := hrn hd (List.mem_cons_self _ _)
            have hd1 : hd.1 = false := by
              cases hy2 : hd.2 with
              | nil => exact absurd hy2 hne
              | cons a l2 =>
                have hdw : rest.dropWhile isSpaceChar =
                    a :: (l2 ++ (tl.map Prod.snd).flatten) := by
                  rw [hdec]
                  simp [hy2]
                have ha : isSpaceChar a = false :=
                  dropWhile_head_not isSpaceChar rest a _ hdw
                have ha2 : isSpaceChar a = hd.1 :=
                  hall a (by rw [hy2]; exact List.mem_cons_self _ _)
                rw [ha] at ha2
                exact ha2.symm
            rw [← hyhd]
            simp [hd1]
        · rw [collapseWs_cons, if_pos hc]
          simp only [List.map_cons, List.flatten_cons, if_true]
          rw [hout]
      · have hlen : rest.length ≤ n := by
          simp only [List.length_cons] at hs
          omega
        obtain ⟨runs, hdec, hrn, hch, hout⟩ := ih rest hlen
        have hcf : isSpaceChar c = false := by simpa using hc
        cases runs with
        | nil =>
          have hrest : rest = [] := by simpa using hdec
          subst hrest
          refine ⟨[(false, [c])], by simp, ?_, by simp, ?_⟩
          · intro r hr
            simp only [List.mem_singleton] at hr
            subst hr
            exact ⟨by simp, by intro ch hch2; simp at hch2; subst hch2; exact hcf⟩
          · simp [collapseWs, collapseWsAux, hcf]
        | cons hd tl =>
          obtain ⟨b, r⟩ := hd
          by_cases hb : b = true
          · subst hb
            refine ⟨(false, [c]) :: (true, r) :: tl, ?_, ?_, ?_, ?_⟩
            · simp only [List.map_cons, List.flatten_cons] at hdec ⊢
              rw [hdec]
              simp
            · intro q hq
              rcases List.mem_cons.mp hq with h1 | h2
              · subst h1
                exact ⟨by simp, by intro ch hch2; simp at hch2; subst hch2; exact hcf⟩
              · exact hrn q h2
            · rw [List.chain'_cons']
              refine ⟨?_, hch⟩
              intro y hy
              have hyy : (true, r) = y := by simpa using hy
              rw [← hyy]
              simp
            · rw [collapseWs_cons, if_neg (by simp [hcf])]
              rw [hout]
              simp
          · have hbf : b = false := by simpa using hb
            subst hbf
            refine ⟨(false, c :: r) :: tl, ?_, ?_, ?_, ?_⟩
            · simp only [List.map_cons, List.flatten_cons] at hdec ⊢
              rw [hdec]
              simp
            · intro q hq
              rcases List.mem_cons.mp hq with h1 | h2
              · subst h1
                refine ⟨by simp, ?_⟩
                intro ch hch2
                rcases List.mem_cons.mp hch2 with h3 | h4
                · subst h3; exact hcf
                · exact (hrn (false, r) (List.mem_cons_self _ _)).2 ch h4
              · exact hrn q (List.mem_cons_of_mem _ h2)
            · rw [List.chain'_cons'] at hch ⊢
              exact ⟨hch.1, hch.2⟩
            · rw [collapseWs_cons, if_neg (by simp [hcf])]
              rw [hout]
              simp

/-- Whitespace collapsing satisfies its maximal-runs characterization. -/
theorem collapseWs_runs (delim s : List Char) :
    CollapsesMaximalWsRuns delim s (collapseWs delim s) :=
  collapseWs_runs_aux delim s.length s (Nat.le_refl _)

/-- The lowercase stage of the sanitize pipeline, as the specification
words it. -/
def lowerStage (cfg : Cfg) (l : List Char) : List Char :=
  if cfg.lowercase then l.map Char.toLower else l

/-- The character-stripping stage of the sanitize pipeline, as the
specification words it: when nonwordchars is false, keep exactly the
characters that are word characters or whitespace. -/
def stripStage (cfg : Cfg) (l : List Char) : List Char :=
  if cfg.nonwordchars then l else l.filter (fun c => isWordChar c || isSpaceChar c)

/-- C2: a path that resolves to a non-null terminal scalar v yields the
sanitization of the canonical string form of v, with the stages applied in
order: optional lowercase fold, then optional removal of characters that
are neither word characters nor whitespace, then replacement of every
maximal whitespace run by one copy of the word delimiter (the last stage
stated through its maximal-runs characterization). -/
theorem claim_C2 (db : List Record) (cfg : Cfg) (model : Value) (key : String)
    (v : Value) (hres : resolveChain db model (splitKey key) = v)
    (_hsc : v.isScalar = true) :
    getItem db cfg model key =
      String.mk (collapseWs cfg.word_delimiter.data
        (stripStage cfg (lowerStage cfg (pyStr v).data))) ∧
    CollapsesMaximalWsRuns cfg.word_delimiter.data
      (stripStage cfg (lowerStage cfg (pyStr v).data))
      (getItem db cfg model key).data := by
  have hmain : getItem db cfg model key =
      String.mk (collapseWs cfg.word_delimiter.data
        (stripStage cfg (lowerStage cfg (pyStr v).data))) := by
    unfold getItem
    rw [hres]
    rfl
  refine ⟨hmain, ?_⟩
  rw [hmain]
  exact collapseWs_runs cfg.word_delimiter.data _

/-- Witness for C2 at a concrete input: the path group__name resolves to
the string Admin Team, which sanitizes to admin_team under the default
options. -/
theorem claim_C2_witness :
    resolveChain exDb (Value.ref 0) (splitKey "group__name") = Value.str "Admin Team" ∧
    (Value.str "Admin Team").isScalar = true ∧
    getItem exDb exCfg (Value.ref 0) "group__name" =
      String.mk (collapseWs exCfg.word_delimiter.data
        (stripStage exCfg (lowerStage exCfg (pyStr (Value.str "Admin Team")).data))) ∧
    getItem exDb exCfg (Value.ref 0) "group__name" = "admin_team" :=
  ⟨by decide, by decide,
    (claim_C2 exDb exCfg (Value.ref 0) "group__name" (Value.str "Admin Team")
      (by decide) (by decide)).1,
    by decide⟩

/-- C8 as amended: the extension appended by build is the splitext rule,
not the naive whole-string last-dot rule: build with add_extension is
build without it followed by appending the splitext extension; that
extension is always a literal (case-preserving) suffix of the original
filename; and the photo.PNG extension is .PNG. -/
theorem claim_C8 (pattern : String) (lowercase nonwordchars : Bool)
    (word_delimiter : String) (db : List Record) (self : Record)
    (old_filename : String) (checked : List Nat) :
    (upload_to pattern true lowercase nonwordchars word_delimiter db self
        old_filename checked).1 =
      Except.map (fun s => s ++ splitext_ext old_filename)
        ((upload_to pattern false lowercase nonwordchars word_delimiter db self
            old_filename checked).1) ∧
    (∃ pre : List Char, old_filename.data = pre ++ (splitext_ext old_filename).data) ∧
    splitext_ext "photo.PNG" = ".PNG" := by
  refine ⟨?_, ?_, by decide⟩
  · cases hp : parseFormat pattern.data with
    | error e => simp [upload_to, hp, Except.map]
    | ok toks =>
      cases hr : renderToks (formatKwargs db ⟨lowercase, nonwordchars, word_delimiter⟩
          self checked).1 toks with
      | error e => simp [upload_to, hp, hr, Except.map]
      | ok s => simp [upload_to, hp, hr, Except.map]
  · unfold splitext_ext
    split
    · split
      · exact ⟨old_filename.data.take (rfindIdx old_filename.data '.').toNat,
          (List.take_append_drop _ _).symm⟩
      · exact ⟨old_filename.data, by simp⟩
    · exact ⟨old_filename.data, by simp⟩

/-- Counterexample to C8 as stated: under the naive whole-string last-dot
rule the extension of .bashrc would be .bashrc itself, but build on a
pattern with no placeholders returns the bare substituted string with
nothing appended, not the base followed by that naive extension. -/
theorem claim_C8_cx :
    last_dot_ext_spec ".bashrc" = ".bashrc" ∧
    (upload_to "x" true true false "_" exDb3 exR3 ".bashrc" []).1 = Except.ok "x" ∧
    (upload_to "x" false true false "_" exDb3 exR3 ".bashrc" []).1 = Except.ok "x" ∧
    "x" ++ last_dot_ext_spec ".bashrc" ≠ "x" :=
  ⟨by decide, by rfl, by rfl, by decide⟩

/-- A keyword dictionary built by pairing every key with a computed value
finds an entry for every key of the list. -/
theorem find?_map_pair (f : String → String) :
    ∀ (ks : List String) (n : String), n ∈ ks →
    ∃ q, (ks.map (fun k => (k, f k))).find? (fun q2 => q2.1 == n) = some q := by
  intro ks
  induction ks with
  | nil => intro n hn; simp at hn
  | cons k rest ih =>
    intro n hn
    by_cases hk : k = n
    · subst hk
      exact ⟨(k, f k), by simp [List.find?]⟩
    · have hk2 : (k == n) = false := by simpa using hk
      rcases List.mem_cons.mp hn with h1 | h2
      · exact absurd h1.symm hk
      · obtain ⟨q, hq⟩ := ih n h2
        exact ⟨q, by simp [List.find?, hk2, hq]⟩

/-- Substitution succeeds whenever every placeholder of the token list has
an entry in the keyword dictionary. -/
theorem renderToks_total :
    ∀ (toks : List FmtToken) (kwargs : List (String × String)),
    (∀ n ∈ placeholderNames toks, ∃ q, kwargs.find? (fun q2 => q2.1 == n) = some q) →
    ∃ s, renderToks kwargs toks = Except.ok s := by
  intro toks
  induction toks with
  | nil => intro kwargs _; exact ⟨"", rfl⟩
  | cons t rest ih =>
    intro kwargs hcov
    cases t with
    | lit c =>
      obtain ⟨s, hs⟩ := ih kwargs (by
        intro n hn
        exact hcov n (by simpa [placeholderNames] using hn))
      exact ⟨String.mk (c :: s.data), by simp [renderToks, hs, Except.map]⟩
    | field n =>
      obtain ⟨q, hq⟩ := hcov n (by simp [placeholderNames])
      obtain ⟨s, hs⟩ := ih kwargs (by
        intro n2 hn2
        exact hcov n2 (by simpa [placeholderNames] using Or.inr hn2))
      exact ⟨q.2 ++ s, by simp [renderToks, hq, hs, Except.map]⟩

/-- C3 as amended: build fails in exactly two situations, a placeholder
syntax error in the pattern, or a well-formed pattern naming a placeholder
that is not among the keys the resolver advertises (a KeyError raised by
the keyword substitution). When the pattern parses and every placeholder
is an advertised key, build returns a string. -/
theorem claim_C3 (pattern : String) (add_extension lowercase nonwordchars : Bool)
    (word_delimiter : String) (db : List Record) (self : Record)
    (old_filename : String) (checked : List Nat) (toks : List FmtToken)
    (hp : parseFormat pattern.data = Except.ok toks)
    (hcov : ∀ n ∈ placeholderNames toks, n ∈ (keysCall db self checked).1) :
    ∃ s, (upload_to pattern add_extension lowercase nonwordchars word_delimiter
        db self old_filename checked).1 = Except.ok s := by
  have hcov2 : ∀ n ∈ placeholderNames toks,
      ∃ q, ((formatKwargs db ⟨lowercase, nonwordchars, word_delimiter⟩
        self checked).1).find? (fun q2 => q2.1 == n) = some q := by
    intro n hn
    exact find?_map_pair _ _ n (hcov n hn)
  obtain ⟨s, hs⟩ := renderToks_total toks _ hcov2
  refine ⟨if add_extension then s ++ splitext_ext old_filename else s, ?_⟩
  simp [upload_to, hp, hs]

/-- Witness for C3 as amended at a concrete input: the pattern naming the
advertised key last_name substitutes successfully. -/
theorem claim_C3_witness :
    parseFormat ("{last_name}".data) = Except.ok [FmtToken.field "last_name"] ∧
    (∀ n ∈ placeholderNames [FmtToken.field "last_name"],
      n ∈ (keysCall exDb exPerson []).1) ∧
    ∃ s, (upload_to "{last_name}" true true false "_" exDb exPerson
        "f.txt" []).1 = Except.ok s :=
  ⟨by rfl, by decide,
    claim_C3 "{last_name}" true true false "_" exDb exPerson "f.txt" []
      [FmtToken.field "last_name"] (by rfl) (by decide)⟩

/-- Counterexample to C3 as stated: a syntactically well-formed pattern
whose placeholder names a path that is not an advertised key makes build
fail with a KeyError, so pattern syntax errors are not the only failure
mode. -/
theorem claim_C3_cx :
    parseFormat ("{foo}".data) = Except.ok [FmtToken.field "foo"] ∧
    (upload_to "{foo}" true true false "_" exDb3 exR3 "f.txt" []).1 =
      Except.error "KeyError: foo" ∧
    ((upload_to "{foo}" true true false "_" exDb3 exR3 "f.txt" []).1).isOk = false :=
  ⟨by rfl, by rfl, by rfl⟩

/-- C4 as amended: because the double-star unpacking converts the mapping
to a dictionary eagerly, the attribute paths resolved during build are
exactly the keys the resolver advertises, whatever the pattern contains. -/
theorem claim_C4 (db : List Record) (cfg : Cfg) (self : Record) (checked : List Nat) :
    resolved_paths db cfg self checked = (keysCall db self checked).1 := by
  simp only [resolved_paths, formatKwargs, List.map_map]
  rw [show (Prod.fst ∘ fun k => (k, getItem db cfg (Value.ref self.id) k)) = id from rfl,
    List.map_id]

/-- Counterexample to C4 as stated: with a pattern holding no placeholders
at all, build still resolves the advertised key bar, so resolution is not
restricted to the paths named by the pattern. -/
theorem claim_C4_cx :
    placeholdersOf "x" = [] ∧
    resolved_paths exDb3 exCfg exR3 [] = ["bar"] ∧
    ¬ (∀ q ∈ resolved_paths exDb3 exCfg exR3 [], q ∈ placeholdersOf "x") :=
  ⟨by rfl, by rfl, by decide⟩

/-- C5 fails on the code: keys() is not pure across invocations. The
checked_models default argument persists between calls, so the second
keys() call on the same formatter returns only the direct keys, omitting
every related key the first call discovered. -/
theorem claim_C5 :
    (keysCall exDb5 exA5 []).1 = ["name", "group", "group__title"] ∧
    (keysCall exDb5 exA5 []).2 = [0, 1] ∧
    (keysCall exDb5 exA5 (keysCall exDb5 exA5 []).2).1 = ["name", "group"] ∧
    (keysCall exDb5 exA5 []).1 ≠ (keysCall exDb5 exA5 (keysCall exDb5 exA5 []).2).1 :=
  ⟨by rfl, by rfl, by rfl, by decide⟩

/-- A relStep application either leaves the accumulator unchanged or hands
control to the recursion on a record of the graph, with the checked list
of the accumulator. -/
theorem relStep_cases (db : List Record)
    (recurse : Record → List String → List String → List Nat → List String × List Nat)
    (model : Record) (prefixes : List String)
    (acc : List String × List Nat) (field : MetaField) :
    relStep db recurse model prefixes acc field = acc ∨
    ∃ m keys1 pre, m ∈ db ∧
      relStep db recurse model prefixes acc field = recurse m keys1 pre acc.2 := by
  unfold relStep
  split
  · split
    · split
      · next m heq =>
        exact Or.inr ⟨m, _, _, List.mem_of_find?_eq_some heq, rfl⟩
      · exact Or.inl rfl
    · exact Or.inl rfl
  · exact Or.inl rfl

/-- relStep applications agree whenever the two recursion functions agree
on records of the graph at the accumulated checked list. -/
theorem relStep_congr (db : List Record)
    (recurse1 recurse2 : Record → List String → List String → List Nat →
      List String × List Nat)
    (model : Record) (prefixes : List String)
    (acc : List String × List Nat) (field : MetaField)
    (h : ∀ m keys1 pre, m ∈ db →
      recurse1 m keys1 pre acc.2 = recurse2 m keys1 pre acc.2) :
    relStep db recurse1 model prefixes acc field
      = relStep db recurse2 model prefixes acc field := by
  unfold relStep
  split
  · split
    · split
      · next m heq =>
        exact h m _ _ (List.mem_of_find?_eq_some heq)
      · rfl
    · rfl
  · rfl

/-- A fold preserves any property preserved by its step. -/
theorem foldl_preserve {α β : Type} (step : α → β → α) (P : α → Prop) :
    ∀ (l : List β) (init : α), P init → (∀ a b, P a → P (step a b)) →
    P (l.foldl step init) := by
  intro l
  induction l with
  | nil => intro init h _; simpa using h
  | cons b rest ih =>
    intro init h hstep
    simp only [List.foldl_cons]
    exact ih _ (hstep init b h) hstep

/-- The checked_models guard: a model whose identity is already on the
checked list is not expanded, whatever the fuel. -/
theorem ark_mem (db : List Record) (fuel : Nat) (model : Record)
    (keys prefixes : List String) (checked : List Nat) (h : model.id ∈ checked) :
    addRelatedKeys db fuel model keys prefixes checked = (keys, checked) := by
  cases fuel with
  | zero => rfl
  | succ f => simp [addRelatedKeys, h]

/-- The discovery walk never records the same instance identity twice: a
duplicate-free checked list stays duplicate-free, so every instance is
expanded at most once. -/
theorem ark_nodup (db : List Record) :
    ∀ (fuel : Nat) (model : Record) (keys prefixes : List String) (checked : List Nat),
    checked.Nodup → ((addRelatedKeys db fuel model keys prefixes checked).2).Nodup := by
  intro fuel
  induction fuel with
  | zero =>
    intro model keys prefixes checked h
    simpa [addRelatedKeys] using h
  | succ f ih =>
    intro model keys prefixes checked h
    by_cases hm : model.id ∈ checked
    · rw [ark_mem db _ _ _ _ _ hm]; exact h
    · simp only [addRelatedKeys]
      rw [if_neg hm]
      have hinit : ((keys, checked ++ [model.id]) : List String × List Nat).2.Nodup := by
        simp [List.nodup_append, h, hm]
      have hstep : ∀ a b,
          a.2.Nodup →
          ((relStep db (fun m k p c => addRelatedKeys db f m k p c) model prefixes)
            a b).2.Nodup := by
        intro a b ha
        rcases relStep_cases db _ model prefixes a b with hcase | ⟨m, keys1, pre, hmdb, hcase⟩
        · rw [hcase]; exact ha
        · rw [hcase]; exact ih m keys1 pre a.2 ha
      exact foldl_preserve _ (fun acc => acc.2.Nodup) model.metaFields
        (keys, checked ++ [model.id]) hinit hstep

/-- The discovery walk only appends to the checked list. -/
theorem ark_extends (db : List Record) :
    ∀ (fuel : Nat) (model : Record) (keys prefixes : List String) (checked : List Nat),
    ∃ ext, (addRelatedKeys db fuel model keys prefixes checked).2 = checked ++ ext := by
  intro fuel
  induction fuel with
  | zero =>
    intro model keys prefixes checked
    exact ⟨[], by simp [addRelatedKeys]⟩
  | succ f ih =>
    intro model keys prefixes checked
    by_cases hm : model.id ∈ checked
    · exact ⟨[], by rw [ark_mem db _ _ _ _ _ hm]; simp⟩
    · simp only [addRelatedKeys]
      rw [if_neg hm]
      have hinit : ∃ e, ((keys, checked ++ [model.id]) : List String × List Nat).2
          = checked ++ e := ⟨[model.id], rfl⟩
      have hstep : ∀ a b, (∃ e, a.2 = checked ++ e) →
          ∃ e, ((relStep db (fun m k p c => addRelatedKeys db f m k p c) model prefixes)
            a b).2 = checked ++ e := by
        intro a b hP
        obtain ⟨e, he⟩ := hP
        rcases relStep_cases db _ model prefixes a b with hcase | ⟨m, keys1, pre, hmdb, hcase⟩
        · rw [hcase]; exact ⟨e, he⟩
        · rw [hcase]
          obtain ⟨e2, he2⟩ := ih m keys1 pre a.2
          exact ⟨e ++ e2, by rw [he2, he, List.append_assoc]⟩
      exact foldl_preserve _ (fun acc => ∃ e, acc.2 = checked ++ e) model.metaFields
        (keys, checked ++ [model.id]) hinit hstep

/-- The count of graph instance identities not yet on the checked list:
the measure that bounds the depth of the discovery walk. -/
def ucount (db : List Record) (c : List Nat) : Nat :=
  ((db.map Record.id).dedup.filter (fun j => !(decide (j ∈ c)))).length

/-- Filtering with a stronger predicate keeps at most as many elements. -/
theorem length_filter_mono {p q : Nat → Bool} :
    ∀ l : List Nat, (∀ j, p j = true → q j = true) →
    (l.filter p).length ≤ (l.filter q).length := by
  intro l h
  induction l with
  | nil => simp
  | cons x rest ih =>
    by_cases hp : p x = true
    · rw [List.filter_cons_of_pos hp, List.filter_cons_of_pos (h x hp)]
      simpa using ih
    · rw [List.filter_cons_of_neg (by simpa using hp)]
      by_cases hq : q x = true
      · rw [List.filter_cons_of_pos hq]
        exact Nat.le_trans ih (by simp)
      · rw [List.filter_cons_of_neg (by simpa using hq)]
        exact ih

/-- The measure is antitone in the checked list. -/
theorem ucount_subset (db : List Record) (c c' : List Nat)
    (h : ∀ j, j ∈ c → j ∈ c') : ucount db c' ≤ ucount db c := by
  apply length_filter_mono
  intro j hj
  have hj' : j ∉ c' := by simpa using hj
  have : j ∉ c := fun hc => hj' (h j hc)
  simpa using this

/-- Appending the identity of an uncounted graph instance to the checked
list decreases the measure by exactly one. -/
theorem filter_out_len :
    ∀ (L c : List Nat) (i : Nat), L.Nodup → i ∈ L → i ∉ c →
    (L.filter (fun j => !(decide (j ∈ c ++ [i])))).length + 1
      = (L.filter (fun j => !(decide (j ∈ c)))).length := by
  intro L
  induction L with
  | nil => intro c i _ hi _; simp at hi
  | cons x rest ih =>
    intro c i hnd hi hic
    obtain ⟨hx, hndr⟩ := List.nodup_cons.mp hnd
    by_cases hxi : x = i
    · subst hxi
      rw [List.filter_cons_of_neg (by simp), List.filter_cons_of_pos (by simpa using hic)]
      have hrw : rest.filter (fun j => !(decide (j ∈ c ++ [x])))
          = rest.filter (fun j => !(decide (j ∈ c))) := by
        apply List.filter_congr
        intro j hj
        have hjx : j ≠ x := fun h => hx (h ▸ hj)
        simp [List.mem_append, hjx]
      rw [hrw]
      simp
    · have hi' : i ∈ rest := by
        rcases List.mem_cons.mp hi with h | h
        · exact absurd h.symm hxi
        · exact h
      have hmem_eq : (x ∈ c ++ [i]) ↔ (x ∈ c) := by simp [hxi]
      by_cases hxc : x ∈ c
      · rw [List.filter_cons_of_neg (by simp [hmem_eq.mpr hxc]),
          List.filter_cons_of_neg (by simp [hxc])]
        exact ih c i hndr hi' hic
      · rw [List.filter_cons_of_pos (by simp; exact ⟨hxc, hxi⟩),
          List.filter_cons_of_pos (by simpa using hxc)]
        have := ih c i hndr hi' hic
        simp only [List.length_cons]
        omega

/-- Expanding a fresh instance of the graph decreases the measure. -/
theorem ucount_append_one (db : List Record) (c : List Nat) (i : Nat)
    (hi : i ∈ db.map Record.id) (hc : i ∉ c) :
    ucount db (c ++ [i]) + 1 = ucount db c :=
  filter_out_len (db.map Record.id).dedup c i (List.nodup_dedup _)
    (List.mem_dedup.mpr hi) hc

/-- The measure is bounded by the size of the graph. -/
theorem ucount_le (db : List Record) (c : List Nat) : ucount db c ≤ db.length := by
  have h1 : ((db.map Record.id).dedup.filter (fun j => !(decide (j ∈ c)))).length
      ≤ (db.map Record.id).dedup.length := List.length_filter_le _ _
  have h2 : (db.map Record.id).dedup.length ≤ (db.map Record.id).length :=
    (List.dedup_sublist _).length_le
  have h3 : (db.map Record.id).length = db.length := List.length_map _ _
  unfold ucount
  omega

/-- Fuel indifference, successor form: once the fuel exceeds the measure
by two, one more unit of fuel cannot change the result — the checked
guard, not the fuel, is what stops the walk. -/
theorem ark_fuel_succ :
    ∀ (f : Nat) (db : List Record) (model : Record) (keys prefixes : List String)
      (checked : List Nat), model ∈ db → ucount db checked + 2 ≤ f →
    addRelatedKeys db f model keys prefixes checked
      = addRelatedKeys db (f + 1) model keys prefixes checked := by
  intro f
  induction f using Nat.strong_induction_on with
  | _ f ihf =>
    intro db model keys prefixes checked hmem hfuel
    cases f with
    | zero => omega
    | succ g =>
      by_cases hm : model.id ∈ checked
      · rw [ark_mem db _ _ _ _ _ hm, ark_mem db _ _ _ _ _ hm]
      · have hid : model.id ∈ db.map Record.id := List.mem_map_of_mem _ hmem
        have hinit : ucount db (checked ++ [model.id]) + 2 ≤ g := by
          have hx := ucount_append_one db checked model.id hid hm
          omega
        simp only [addRelatedKeys]
        rw [if_neg hm, if_neg hm]
        have main : ∀ (fields : List MetaField) (acc : List String × List Nat),
            ucount db acc.2 + 2 ≤ g →
            fields.foldl
              (relStep db (fun m k p c => addRelatedKeys db g m k p c) model prefixes) acc
              = fields.foldl
                (relStep db (fun m k p c => addRelatedKeys db (g + 1) m k p c)
                  model prefixes) acc := by
          intro fields
          induction fields with
          | nil => intro acc _; rfl
          | cons b rest ihb =>
            intro acc hacc
            simp only [List.foldl_cons]
            have hstep :
                relStep db (fun m k p c => addRelatedKeys db g m k p c)
                  model prefixes acc b
                = relStep db (fun m k p c => addRelatedKeys db (g + 1) m k p c)
                  model prefixes acc b := by
              apply relStep_congr
              intro m keys1 pre hmdb
              exact ihf g (Nat.lt_succ_self g) db m keys1 pre acc.2 hmdb hacc
            rw [hstep]
            apply ihb
            rcases relStep_cases db (fun m k p c => addRelatedKeys db (g + 1) m k p c)
                model prefixes acc b with hcase | ⟨m, keys1, pre, hmdb, hcase⟩
            · rw [hcase]; exact hacc
            · rw [hcase]
              obtain ⟨e, he⟩ := ark_extends db (g + 1) m keys1 pre acc.2
              have hsub : ucount db ((addRelatedKeys db (g + 1) m keys1 pre acc.2).2)
                  ≤ ucount db acc.2 := by
                rw [he]
                exact ucount_subset db acc.2 (acc.2 ++ e)
                  (fun j hj => List.mem_append_left _ hj)
              omega
        exact main model.metaFields (keys, checked ++ [model.id]) hinit

/-- Fuel indifference: above the uniform bound, the result is the value at
the bound. -/
theorem ark_fuel_stable (db : List Record) (model : Record)
    (keys prefixes : List String) (checked : List Nat) (hmem : model ∈ db) :
    ∀ d : Nat, addRelatedKeys db (db.length + 2 + d) model keys prefixes checked
      = addRelatedKeys db (db.length + 2) model keys prefixes checked := by
  intro d
  induction d with
  | zero => rfl
  | succ e ih =>
    have h := ark_fuel_succ (db.length + 2 + e) db model keys prefixes checked hmem
      (by have := ucount_le db checked; omega)
    have heq : db.length + 2 + (e + 1) = (db.length + 2 + e) + 1 := by omega
    rw [heq, ← h]
    exact ih

/-- Fuel indifference between any two sufficient fuels. -/
theorem ark_fuel_ge (db : List Record) (model : Record)
    (keys prefixes : List String) (checked : List Nat) (hmem : model ∈ db)
    (f1 f2 : Nat) (h1 : db.length + 2 ≤ f1) (h2 : db.length + 2 ≤ f2) :
    addRelatedKeys db f1 model keys prefixes checked
      = addRelatedKeys db f2 model keys prefixes checked := by
  have e1 : f1 = db.length + 2 + (f1 - (db.length + 2)) := by omega
  have e2 : f2 = db.length + 2 + (f2 - (db.length + 2)) := by omega
  rw [e1, e2, ark_fuel_stable db model keys prefixes checked hmem,
    ark_fuel_stable db model keys prefixes checked hmem]

/-- C6 as amended: the cycle guard of the discovery walk is the
checked_models list of already-visited record instances (not schemas): an
instance already on the list is never re-entered, no instance is recorded
twice, and — because the list is a mutable default persisting across
calls — a top-level keys() call whose root is already on the list returns
only the direct keys, rather than starting a fresh discovery. -/
theorem claim_C6 (db : List Record) (fuel : Nat) (model : Record)
    (keys prefixes : List String) (checked : List Nat) :
    (model.id ∈ checked →
      addRelatedKeys db fuel model keys prefixes checked = (keys, checked)) ∧
    (checked.Nodup →
      ((addRelatedKeys db fuel model keys prefixes checked).2).Nodup) ∧
    (∀ st : List Nat, model.id ∈ st → keysCall db model st = (getKeys model, st)) :=
  ⟨fun h => ark_mem db fuel model keys prefixes checked h,
   fun h => ark_nodup db fuel model keys prefixes checked h,
   fun st h => by unfold keysCall; exact ark_mem db _ model _ [] st h⟩

/-- Witness for C6 as amended at concrete inputs. -/
theorem claim_C6_witness :
    (0 ∈ [0]) ∧
    addRelatedKeys exDb5 3 exA5 ["name"] [] [0] = (["name"], [0]) ∧
    ([0] : List Nat).Nodup ∧
    ((addRelatedKeys exDb5 3 exA5 ["name"] [] [0]).2).Nodup ∧
    keysCall exDb5 exA5 [0, 1] = (getKeys exA5, [0, 1]) :=
  ⟨by decide,
   (claim_C6 exDb5 3 exA5 ["name"] [] [0]).1 (by decide),
   by decide,
   (claim_C6 exDb5 3 exA5 ["name"] [] [0]).2.1 (by decide),
   (claim_C6 exDb5 3 exA5 ["name"] [] [0]).2.2 [0, 1] (by decide)⟩

/-- Counterexample to C6 as stated: on the duplicated-schema graph, schema
0 is visited at the root and then re-entered through the second instance
(identity 2), producing the key rel__rel2__name; the visited-schema trace
of the walk has a duplicate, so the guard is not keyed by schema. -/
theorem claim_C6_cx :
    (keysCall exDb2 exA0 []).1.contains "rel__rel2__name" = true ∧
    (keysCall exDb2 exA0 []).2 = [0, 1, 2] ∧
    ¬ ((keysCall exDb2 exA0 []).2.filterMap
        (fun i => (findRec exDb2 i).map (fun r => r.schemaId))).Nodup :=
  ⟨by rfl, by rfl, by decide⟩

/-- C7 as amended: the discovery walk terminates on every finite graph,
cyclic or not — once the fuel passes the uniform bound the result no
longer depends on it, and keysCall computes that stable value — and it
performs at most one expansion per distinct record instance (not per
schema). -/
theorem claim_C7 (db : List Record) (root : Record) (checked : List Nat)
    (f1 f2 : Nat) (hroot : root ∈ db) (h1 : db.length + 2 ≤ f1)
    (h2 : db.length + 2 ≤ f2) (hnd : checked.Nodup) :
    addRelatedKeys db f1 root (getKeys root) [] checked
      = addRelatedKeys db f2 root (getKeys root) [] checked ∧
    addRelatedKeys db f1 root (getKeys root) [] checked = keysCall db root checked ∧
    (∀ i : Nat, ((keysCall db root checked).2.count i) ≤ 1) := by
  refine ⟨ark_fuel_ge db root _ [] checked hroot f1 f2 h1 h2, ?_, ?_⟩
  · unfold keysCall
    exact ark_fuel_ge db root _ [] checked hroot f1 (db.length + 2) h1 (Nat.le_refl _)
  · intro i
    exact (List.nodup_iff_count_le_one.mp
      (ark_nodup db (db.length + 2) root (getKeys root) [] checked hnd)) i

/-- Witness for C7 as amended on the two-record cyclic graph: the walk
terminates, is fuel-indifferent, and yields the expected keys. -/
theorem claim_C7_witness :
    exCa ∈ exDbCyc ∧
    exDbCyc.length + 2 ≤ 4 ∧ exDbCyc.length + 2 ≤ 7 ∧ ([] : List Nat).Nodup ∧
    addRelatedKeys exDbCyc 4 exCa (getKeys exCa) [] []
      = addRelatedKeys exDbCyc 7 exCa (getKeys exCa) [] [] ∧
    addRelatedKeys exDbCyc 4 exCa (getKeys exCa) [] [] = keysCall exDbCyc exCa [] ∧
    (keysCall exDbCyc exCa []).1 = ["name", "b", "b__x", "b__a", "b__a__name", "b__a__b"] :=
  ⟨by decide, by decide, by decide, by decide,
   (claim_C7 exDbCyc exCa [] 4 7 (by decide) (by decide) (by decide) (by decide)).1,
   (claim_C7 exDbCyc exCa [] 4 7 (by decide) (by decide) (by decide) (by decide)).2.1,
   by rfl⟩

/-- Counterexample to C7 as stated: on the duplicated-schema graph the
walk expands three instances whose schema trace is 0, 1, 0 — schema 0 is
expanded twice, so the walk does not perform at most one expansion per
distinct schema. -/
theorem claim_C7_cx :
    ((keysCall exDb2 exA0 []).2.filterMap
      (fun i => (findRec exDb2 i).map (fun r => r.schemaId))) = [0, 1, 0] ∧
    ¬ ((((keysCall exDb2 exA0 []).2.filterMap
      (fun i => (findRec exDb2 i).map (fun r => r.schemaId))).count 0) ≤ 1) :=
  ⟨by rfl, by decide⟩

end Modeltools
